import Mathlib

/-!
Shallow embedding of the route geometry engine of `src/API_/route_API.py`
(class `RouteAPI`), together with proofs about it.

Modelling conventions:
* Python `int` is `ℤ` (and `ℕ` where the source is manifestly non-negative).
* Python `float` arithmetic is idealised as exact real arithmetic over `ℝ`;
  coordinates (latitude/longitude pairs decoded from polylines at 1e-5 degree
  precision) are carried as rationals `ℚ` and cast into `ℝ` at the points
  where the source performs floating point computation (`sqrt`, divisions).
* The external polyline codec (`polyline.decode` / `polyline.encode`, an
  external collaborator of the engine) is modelled as the identity on already
  decoded vertex lists: a `polyline` field holds the decoded `List Coord`
  directly, so `decode` disappears and `encode` of a vertex list is the list
  itself.  The round-trip invariant of the codec is thus assumed exact.
* Python's `(None, value)` / `None` results are `Option`; a raised `TypeError`
  is an explicit error value of an `Except`-style wrapper.
* Python `int(x)` on a float truncates toward zero: `pyInt` below.
* Python `a % b` for `b > 0` agrees with Lean's `Int.emod` (both return a
  representative in `[0, b)`), which is the only regime the engine uses.
-/

set_option maxHeartbeats 1000000

namespace RouteAPI

/-- A latitude/longitude pair, degrees.  The source passes these around as
`(lat, lng)` tuples or `{"lat": .., "lng": ..}` dictionaries. -/
structure Coord where
  lat : ℚ
  lng : ℚ
deriving DecidableEq, Repr, Inhabited

/-- One atomic directed segment of a route, as stored in the `step`
dictionaries built by `RouteAPI.__parse_route` (and, for synthesised
"left steps", by `RouteAPI.__calculate_left_step`).  `duration` is `none`
exactly for synthesised left steps (`"duration": None` in the source). -/
structure Step where
  start_location : Coord
  end_location : Coord
  distance : ℤ
  duration : Option ℤ
  polyline : List Coord
deriving DecidableEq, Repr

/-- A stop point dictionary as built by `RouteAPI.__init_stop_point`:
a coordinate plus a cumulative distance along the route. -/
structure StopPoint where
  lat : ℚ
  lng : ℚ
  distance : ℤ
deriving DecidableEq, Repr

/-- `RouteAPI.__init_stop_point`. -/
def init_stop_point (lat lng : ℚ) (distance : ℤ) : StopPoint :=
  { lat := lat, lng := lng, distance := distance }

/-- A raw provider step (`leg["steps"][k]` of a raw directions response):
the fields read by `RouteAPI.__parse_route`.  `polyline` holds the decoded
form of `raw_step["polyline"]["points"]`. -/
structure RawStep where
  start_location : Coord
  end_location : Coord
  distance_value : ℤ
  duration_value : ℤ
  polyline : List Coord
deriving DecidableEq, Repr

/-- A raw provider leg: the fields read by `RouteAPI.__parse_route`. -/
structure RawLeg where
  start_address : String
  end_address : String
  start_location : Coord
  end_location : Coord
  distance_value : ℤ
  duration_value : ℤ
  steps : List RawStep
deriving DecidableEq, Repr, Inhabited

/-- A raw provider route: the fields read by `RouteAPI.__parse_route`. -/
structure RawRoute where
  bounds : Coord × Coord
  legs : List RawLeg
  overview_polyline : List Coord
  summary : String
  warnings : List String
  waypoint_order : List ℤ
deriving DecidableEq, Repr

/-- The route dictionary built by `RouteAPI.__parse_route`. -/
structure Route where
  bounds : Coord × Coord
  start_address : String
  start_location : Coord
  end_address : String
  end_location : Coord
  distance : ℤ
  duration : ℤ
  steps : List Step
  distance_text : String
  duration_text : String
  polyline : List Coord
  summary : String
  warnings : List String
  waypoint_order : List ℤ
deriving DecidableEq, Repr

/-- `RouteAPI.__SECONDS_IN_HOUR`. -/
def SECONDS_IN_HOUR : ℤ := 3600

/-- `RouteAPI.__SECONDS_IN_MINUTE`. -/
def SECONDS_IN_MINUTE : ℤ := 60

/-- `RouteAPI.__METERS_IN_KILOMETERS`. -/
def METERS_IN_KILOMETERS : ℤ := 1000

/-- `RouteAPI.__convert_seconds_to_duration_text`.  Python `//` and `%` are
floor division and sign-of-divisor remainder, i.e. `Int.fdiv` / `Int.fmod`;
the engine only ever passes non-negative seconds, where these agree with
every other division convention.  The imperative `+=` concatenation is
rendered as the equivalent functional concatenation. -/
def convert_seconds_to_duration_text (seconds : ℤ) : String :=
  let hours : ℤ := seconds.fdiv SECONDS_IN_HOUR
  let seconds2 : ℤ := seconds.fmod SECONDS_IN_HOUR
  let minutes : ℤ := seconds2.fdiv SECONDS_IN_MINUTE
  let hour_part : String :=
    if 0 < hours then
      toString hours ++ " hour" ++ (if 1 < hours then "s" else "")
        ++ (if 0 < minutes then " " else "")
    else ""
  let duration_text : String :=
    hour_part ++
      (if 0 < minutes then
        toString minutes ++ " min" ++ (if 1 < minutes then "s" else "")
      else "")
  if hours = 0 ∧ minutes = 0 then "0 mins" else duration_text

/-- Helper for `convert_meters_to_distance_text`: Python's `"{:.1f}"`
formatting of `meters / 1000` — one decimal digit, here modelled as
round-half-up at the first decimal (no claim depends on this branch's
output, only on the integer arithmetic around it). -/
def one_decimal_km (meters : ℤ) : String :=
  let tenths : ℤ := (10 * meters + 500).fdiv 1000
  toString (tenths.fdiv 10) ++ "." ++ toString (tenths.fmod 10) ++ " km"

/-- `RouteAPI.__convert_meters_to_distance_text`. -/
def convert_meters_to_distance_text (meters : ℤ) : String :=
  if 99 ≤ meters then
    let kilometers : ℤ := meters.fdiv METERS_IN_KILOMETERS
    if kilometers < 100 then one_decimal_km meters
    else toString kilometers ++ " km"
  else toString meters ++ " m"

/-- The step dictionary built for each raw step inside
`RouteAPI.__parse_route`'s inner loop: provider steps always carry a
duration. -/
def parse_step (raw_step : RawStep) : Step :=
  { start_location := raw_step.start_location
    end_location := raw_step.end_location
    distance := raw_step.distance_value
    duration := some raw_step.duration_value
    polyline := raw_step.polyline }

/-- `RouteAPI.__parse_route`.  The source reads `legs[0]` and `legs[-1]`
(which raises on an empty legs list — provider responses always contain at
least one leg); the empty case is rendered with the default leg.  The
accumulation loop over legs sums the legs' own `distance.value` /
`duration.value` totals and flattens the legs' step lists, in order. -/
def parse_route (raw_route : RawRoute) : Route :=
  let distance : ℤ := (raw_route.legs.map RawLeg.distance_value).sum
  let duration : ℤ := (raw_route.legs.map RawLeg.duration_value).sum
  { bounds := raw_route.bounds
    start_address := (raw_route.legs.headD default).start_address
    start_location := (raw_route.legs.headD default).start_location
    end_address := (raw_route.legs.getLastD default).end_address
    end_location := (raw_route.legs.getLastD default).end_location
    distance := distance
    duration := duration
    steps := (raw_route.legs.map (fun leg => leg.steps.map parse_step)).flatten
    distance_text := convert_meters_to_distance_text distance
    duration_text := convert_seconds_to_duration_text duration
    polyline := raw_route.overview_polyline
    summary := raw_route.summary
    warnings := raw_route.warnings
    waypoint_order := raw_route.waypoint_order }

noncomputable section

open Classical

/-- Python `int(x)` applied to a float: truncation toward zero. -/
def pyInt (x : ℝ) : ℤ := if 0 ≤ x then ⌊x⌋ else ⌈x⌉

/-- The planar Euclidean distance `sqrt(dx**2 + dy**2)` between two
latitude/longitude pairs, computed in floating point by the source
(`__locate_coordinate` and `__calculate_sector_lengths`), idealised over
`ℝ`. -/
def planar_dist (a b : Coord) : ℝ :=
  Real.sqrt (((a.lat : ℝ) - (b.lat : ℝ)) ^ 2 + ((a.lng : ℝ) - (b.lng : ℝ)) ^ 2)

/-- `RouteAPI.__calculate_sector_lengths`: the list of vertex-to-vertex
sector lengths (the loop runs over indices `0 .. len - 2`, i.e. over
`coordinates.zip coordinates.tail`), together with their running total. -/
def calculate_sector_lengths (coordinates : List Coord) : List ℝ × ℝ :=
  let sector_lengths := (coordinates.zip coordinates.tail).map fun p => planar_dist p.1 p.2
  (sector_lengths, sector_lengths.sum)

/-- Loop of `RouteAPI.__locate_coordinate`.  The source's running pair
`(closest_coordinate_ind | None, smallest_distance)` starts at
`(None, float("inf"))`; the pair is modelled as `Option (ℕ × ℝ)` with
`none` denoting the initial `(None, inf)` state (any finite distance
beats `inf`, which is the `none` branch below). -/
def locate_coordinate_go (locating_coordinate : Coord) :
    List Coord → ℕ → Option (ℕ × ℝ) → Option (ℕ × ℝ)
  | [], _, best => best
  | coordinate :: rest, ind, best =>
    let distance := planar_dist locating_coordinate coordinate
    match best with
    | none => locate_coordinate_go locating_coordinate rest (ind + 1) (some (ind, distance))
    | some (bi, bd) =>
      if distance < bd then
        locate_coordinate_go locating_coordinate rest (ind + 1) (some (ind, distance))
      else
        locate_coordinate_go locating_coordinate rest (ind + 1) (some (bi, bd))

/-- `RouteAPI.__locate_coordinate`: brute-force nearest-vertex search.
Returns the index of the first vertex at minimal planar distance and that
distance; `none` models the `(None, inf)` result for an empty vertex
list. -/
def locate_coordinate (coordinates : List Coord) (locating_coordinate : Coord) :
    Option (ℕ × ℝ) :=
  locate_coordinate_go locating_coordinate coordinates 0 none

/-- Loop of `RouteAPI.__locate_step`: the running pair
`(step_ind | None, min_length_to_coordinate)` starting at `(None, inf)`,
modelled as `Option (ℕ × ℝ)` exactly as in `locate_coordinate_go`.
A step whose polyline decodes to no vertices yields
`coordinate_ind is None` and is skipped. -/
def locate_step_go (coordinate : Coord) :
    List Step → ℕ → Option (ℕ × ℝ) → Option (ℕ × ℝ)
  | [], _, best => best
  | step :: rest, ind, best =>
    match locate_coordinate step.polyline coordinate with
    | none => locate_step_go coordinate rest (ind + 1) best
    | some (_, length_to_coordinate) =>
      match best with
      | none => locate_step_go coordinate rest (ind + 1) (some (ind, length_to_coordinate))
      | some (bi, bd) =>
        if length_to_coordinate < bd then
          locate_step_go coordinate rest (ind + 1) (some (ind, length_to_coordinate))
        else locate_step_go coordinate rest (ind + 1) (some (bi, bd))

/-- `RouteAPI.__locate_step`: index of the step owning the globally nearest
polyline vertex, ties resolved by the strict `<` update (first occurrence
wins). -/
def locate_step (steps : List Step) (coordinate : Coord) : Option ℕ :=
  (locate_step_go coordinate steps 0 none).map Prod.fst

/-- `RouteAPI.__calculate_left_step`: the synthesised remainder ("left
step") of `step` beyond the vertex nearest to `coordinate`.  The re-encoded
sub-polyline `encode(polyline_coordinates[coordinate_ind:])` is the dropped
vertex list itself under the identity codec model.  The `polyline_coordinates[coordinate_ind]`
and `polyline_coordinates[-1]` accesses occur only with a located (hence
in-range) index on a nonempty list, so the `getD`/`getLastD` defaults are
never read. -/
def calculate_left_step (step : Step) (coordinate : Coord) : Option Step :=
  let polyline_coordinates := step.polyline
  let sector_lengths := (calculate_sector_lengths polyline_coordinates).1
  let polyline_length := (calculate_sector_lengths polyline_coordinates).2
  match locate_coordinate polyline_coordinates coordinate with
  | none => none
  | some (coordinate_ind, _) =>
    if coordinate_ind ≠ polyline_coordinates.length - 1 ∧ 0 < step.distance ∧
        0 < polyline_length then
      let distance_in_coordinate := (sector_lengths.drop coordinate_ind).sum
      if 0 < distance_in_coordinate then
        some { start_location := polyline_coordinates.getD coordinate_ind default
               end_location := polyline_coordinates.getLastD default
               distance := pyInt ((step.distance : ℝ) / polyline_length * distance_in_coordinate)
               duration := none
               polyline := polyline_coordinates.drop coordinate_ind }
      else none
    else none

/-- The `for ind, sector_length in enumerate(sector_lengths)` loop of
`RouteAPI.__aproximate_stop_points`.  Iteration is over
`coordinates.zip coordinates.tail`, whose `ind`-th element pairs
`coordinates[ind]` with `coordinates[ind + 1]`, so `sector.1` is the
`coordinates[ind]` the source reads and `planar_dist sector.1 sector.2` is
`sector_lengths[ind]`.  State threads `current_polyline`,
`current_percent`, `stop_point_on_polyline` and `new_distance`; `only_first`
triggers the `break` after the first appended point. -/
def approx_go (D full_distance : ℤ)
    (next_stop_point_percent next_stop_point_length : ℝ) (only_first : Bool) :
    List (Coord × Coord) → ℝ → ℝ → ℝ → ℤ → List StopPoint × ℤ
  | [], _, _, _, new_distance => ([], new_distance)
  | sector :: rest, current_polyline, current_percent, stop_point_on_polyline, new_distance =>
    let current_polyline2 := current_polyline + planar_dist sector.1 sector.2
    if stop_point_on_polyline < current_polyline2 then
      let p := init_stop_point sector.1.lat sector.1.lng
        (full_distance - D + pyInt (current_percent * (D : ℝ)))
      let new_distance2 := full_distance - p.distance
      if only_first then ([p], new_distance2)
      else
        let r := approx_go D full_distance next_stop_point_percent next_stop_point_length
          only_first rest current_polyline2 (current_percent + next_stop_point_percent)
          (stop_point_on_polyline + next_stop_point_length) new_distance2
        (p :: r.1, r.2)
    else
      approx_go D full_distance next_stop_point_percent next_stop_point_length only_first
        rest current_polyline2 current_percent stop_point_on_polyline new_distance

/-- `RouteAPI.__aproximate_stop_points`.  `distance` is the running spacing
counter after adding this step's distance, `full_distance` the cumulative
route distance through this step.  The first percent is
`abs(distance_between_points - (distance - step.distance)) / step.distance`
(an integer absolute value divided in floating point).  If the loop emitted
no point, the step's end location stamped with `full_distance` is appended
instead. -/
def aproximate_stop_points (step : Step) (distance distance_between_points full_distance : ℤ)
    (only_first : Bool) : List StopPoint × ℤ :=
  let coordinates := step.polyline
  let r :=
    if 0 < step.distance ∧ coordinates ≠ [] then
      let polyline_length := (calculate_sector_lengths coordinates).2
      let first_stop_point_percent : ℝ :=
        ((|distance_between_points - (distance - step.distance)| : ℤ) : ℝ) /
          (step.distance : ℝ)
      let next_stop_point_percent : ℝ :=
        (distance_between_points : ℝ) / (step.distance : ℝ)
      approx_go step.distance full_distance next_stop_point_percent
        (next_stop_point_percent * polyline_length) only_first
        (coordinates.zip coordinates.tail) 0 first_stop_point_percent
        (first_stop_point_percent * polyline_length) 0
    else ([], 0)
  if r.1 = [] then
    ([init_stop_point step.end_location.lat step.end_location.lng full_distance], r.2)
  else r

/-- The step loop of `RouteAPI.__locate_stop_points`, threading the
cumulative `full_distance` and the running spacing counter `distance`;
`only_first` triggers the `break` directly after the first triggered
step's points are collected. -/
def lsp_go (distance_between_points : ℤ) (only_first : Bool) :
    List Step → ℤ → ℤ → List StopPoint × ℤ × ℤ
  | [], full_distance, distance => ([], full_distance, distance)
  | step :: rest, full_distance, distance =>
    let distance2 := distance + step.distance
    let full2 := full_distance + step.distance
    if distance_between_points ≤ distance2 then
      let r := aproximate_stop_points step distance2 distance_between_points full2 only_first
      if only_first then (r.1, full2, r.2)
      else
        let rec2 := lsp_go distance_between_points only_first rest full2 r.2
        (r.1 ++ rec2.1, rec2.2.1, rec2.2.2)
    else lsp_go distance_between_points only_first rest full2 distance2

/-- `RouteAPI.__locate_stop_points`.  The only field of the route dictionary
it reads is `route["steps"]`, which is the argument here (callers pass
either a parsed route's steps or a truncated "left route"'s steps).  The
counter starts at `traveled_distance % distance_between_points`; for a
positive spacing Lean's `Int.emod` agrees with Python's `%`. -/
def locate_stop_points (steps : List Step) (distance_between_points traveled_distance : ℤ)
    (only_first : Bool) : List StopPoint × ℤ × ℤ :=
  lsp_go distance_between_points only_first steps 0
    (traveled_distance % distance_between_points)

/-- `RouteAPI.get_stop_points`. -/
def get_stop_points (route : Route) (distance_between_points traveled_distance : ℤ)
    (only_first : Bool) : List StopPoint :=
  (locate_stop_points route.steps distance_between_points traveled_distance only_first).1

/-- The reduced ("left") route's step list built inside
`RouteAPI.get_point_on_route`: the steps strictly after the located step,
with the synthesised left step (when one was produced) inserted in front.
The source builds it as `{"steps": route["steps"][step_ind + 1:]}` — a
dictionary holding ONLY a steps list, which is why the type here is a bare
step list.  The `[]` branch is unreachable because `locate_step` only
returns in-range indices. -/
def left_route_steps (steps : List Step) (coordinate : Coord) (step_ind : ℕ) : List Step :=
  match steps.drop step_ind with
  | [] => []
  | located_step :: rest =>
    (match calculate_left_step located_step coordinate with
     | some left_step => [left_step]
     | none => []) ++ rest

/-- `RouteAPI.get_point_on_route` after its projection distance has been
resolved to an integer (lines 137-165 of the source). -/
def get_point_on_route (route : Route) (coordinate : Coord) (distance : ℤ) :
    Option StopPoint × Bool :=
  match locate_step route.steps coordinate with
  | none => (none, false)
  | some step_ind =>
    let left_route := left_route_steps route.steps coordinate step_ind
    let r := locate_stop_points left_route distance 0 true
    match r.1 with
    | predicted_point :: _ => (some predicted_point, false)
    | [] =>
      (some { lat := route.end_location.lat, lng := route.end_location.lng,
              distance := r.2.1 }, true)

/-- The Python exceptions the argument handling of `get_point_on_route`
can raise. -/
inductive PyError where
  | typeError
deriving DecidableEq, Repr

/-- `RouteAPI.get_point_on_route` including its argument resolution
(lines 132-135): with `distance is None`, the source evaluates
`int(time * speed)`, which raises `TypeError` when `time` or `speed` is
also `None`; multiplying two present integers needs no truncation. -/
def get_point_on_route_checked (route : Route) (coordinate : Coord)
    (distance time speed : Option ℤ) : Except PyError (Option StopPoint × Bool) :=
  match distance with
  | some d => .ok (get_point_on_route route coordinate d)
  | none =>
    match time, speed with
    | some t, some s => .ok (get_point_on_route route coordinate (t * s))
    | _, _ => .error .typeError

/-- A heap of Python list objects (cells holding step lists), addressed by
index, to express object identity and in-place mutation for the
frame-condition claim. -/
abbrev Heap := List (List Step)

/-- Dereference a list object. -/
def heap_read (h : Heap) (r : ℕ) : List Step := h.getD r []

/-- Creation of a fresh list object (what a Python slice does). -/
def heap_alloc (h : Heap) (l : List Step) : Heap × ℕ := (h ++ [l], h.length)

/-- `obj.insert(0, s)`: in-place mutation of the addressed cell. -/
def heap_insert0 (h : Heap) (r : ℕ) (s : Step) : Heap :=
  h.set r (s :: heap_read h r)

/-- A route whose steps list is a heap-allocated Python list object; the
other fields read by the engine are value data. -/
structure RouteH where
  steps_ref : ℕ
  end_location : Coord

/-- `RouteAPI.get_stop_points` against the heap model: it only reads
`route["steps"]`. -/
def get_stop_points_h (h : Heap) (route : RouteH)
    (distance_between_points traveled_distance : ℤ) (only_first : Bool) :
    Heap × List StopPoint :=
  (h, (locate_stop_points (heap_read h route.steps_ref) distance_between_points
        traveled_distance only_first).1)

/-- `RouteAPI.get_point_on_route` against the heap model.  The slice
`route["steps"][step_ind + 1:]` allocates a fresh list object and
`insert(0, left_step)` mutates only that fresh object. -/
def get_point_on_route_h (h : Heap) (route : RouteH) (coordinate : Coord) (distance : ℤ) :
    Heap × (Option StopPoint × Bool) :=
  let steps := heap_read h route.steps_ref
  match locate_step steps coordinate with
  | none => (h, (none, false))
  | some step_ind =>
    match steps.drop step_ind with
    | [] => (h, (none, false))
    | located_step :: rest =>
      let a := heap_alloc h rest
      let h2 :=
        match calculate_left_step located_step coordinate with
        | some left_step => heap_insert0 a.1 a.2 left_step
        | none => a.1
      let r := locate_stop_points (heap_read h2 a.2) distance 0 true
      match r.1 with
      | predicted_point :: _ => (h2, (some predicted_point, false))
      | [] =>
        (h2, (some { lat := route.end_location.lat, lng := route.end_location.lng,
                     distance := r.2.1 }, true))

end

/-! ### Spec-side renderings and concrete fixtures -/

/-- The duration rendering exactly as §4.1 of the spec words it: `"0 mins"`
when both counts are zero, otherwise the hour part `"<N> hour[s]"` (omitted
when zero) followed, when minutes > 0, by a space and `"<N> min[s]"`, a unit
pluralised only when its quantity is strictly greater than 1.  The space
separates the hour part from the minute part, so it appears only when both
parts are present. -/
def duration_text_from_spec (seconds : ℤ) : String :=
  let hours : ℤ := seconds.fdiv SECONDS_IN_HOUR
  let minutes : ℤ := (seconds.fmod SECONDS_IN_HOUR).fdiv SECONDS_IN_MINUTE
  let hour_text : String := toString hours ++ " hour" ++ (if 1 < hours then "s" else "")
  let minute_text : String := toString minutes ++ " min" ++ (if 1 < minutes then "s" else "")
  if hours = 0 ∧ minutes = 0 then "0 mins"
  else
    (if hours = 0 then "" else hour_text) ++
      (if 0 < minutes then (if 0 < hours then " " else "") ++ minute_text else "")

/-- A raw response whose single leg reports a total (10 m / 20 s) different
from the sum of its steps' values (5 m / 7 s). -/
def rawRouteCex : RawRoute :=
  { bounds := (⟨0, 0⟩, ⟨0, 0⟩)
    legs := [{ start_address := "A", end_address := "B", start_location := ⟨0, 0⟩,
               end_location := ⟨1, 1⟩, distance_value := 10, duration_value := 20,
               steps := [{ start_location := ⟨0, 0⟩, end_location := ⟨1, 1⟩,
                           distance_value := 5, duration_value := 7,
                           polyline := [⟨0, 0⟩, ⟨1, 1⟩] }] }]
    overview_polyline := [⟨0, 0⟩, ⟨1, 1⟩], summary := "", warnings := [],
    waypoint_order := [] }

/-- A raw response whose single leg totals agree with its steps' sums. -/
def rawRouteW : RawRoute :=
  { bounds := (⟨0, 0⟩, ⟨0, 0⟩)
    legs := [{ start_address := "A", end_address := "B", start_location := ⟨0, 0⟩,
               end_location := ⟨1, 1⟩, distance_value := 5, duration_value := 7,
               steps := [{ start_location := ⟨0, 0⟩, end_location := ⟨1, 1⟩,
                           distance_value := 5, duration_value := 7,
                           polyline := [⟨0, 0⟩, ⟨1, 1⟩] }] }]
    overview_polyline := [⟨0, 0⟩, ⟨1, 1⟩], summary := "", warnings := [],
    waypoint_order := [] }

/-- A 100 m step along a unit east-west polyline segment. -/
def stepCexA : Step :=
  { start_location := ⟨0, 0⟩, end_location := ⟨1, 0⟩, distance := 100,
    duration := some 60, polyline := [⟨0, 0⟩, ⟨1, 0⟩] }

/-- A degenerate step with zero authoritative distance. -/
def stepCexZero : Step :=
  { start_location := ⟨1, 0⟩, end_location := ⟨1, 0⟩, distance := 0,
    duration := some 0, polyline := [⟨1, 0⟩] }

/-- A step whose polyline ends in a repeated vertex: the remaining length
beyond the vertex nearest to `⟨0, 1⟩` is zero although that vertex is not
the last one and both the authoritative distance and the total polyline
length are positive. -/
def stepCexDup : Step :=
  { start_location := ⟨0, 0⟩, end_location := ⟨0, 1⟩, distance := 10,
    duration := some 5, polyline := [⟨0, 0⟩, ⟨0, 1⟩, ⟨0, 1⟩] }

/-- A 10 m step along a unit south-north polyline segment. -/
def stepB : Step :=
  { start_location := ⟨0, 0⟩, end_location := ⟨0, 1⟩, distance := 10,
    duration := some 5, polyline := [⟨0, 0⟩, ⟨0, 1⟩] }

/-- A single-vertex 5 m step. -/
def stepW : Step :=
  { start_location := ⟨0, 0⟩, end_location := ⟨0, 0⟩, distance := 5,
    duration := some 3, polyline := [⟨0, 0⟩] }

/-- A one-step route ending at `⟨9, 9⟩`. -/
def routeW : Route :=
  { bounds := (⟨0, 0⟩, ⟨9, 9⟩), start_address := "s", start_location := ⟨0, 0⟩,
    end_address := "e", end_location := ⟨9, 9⟩, distance := 5, duration := 3,
    steps := [stepW], distance_text := "5 m", duration_text := "0 mins",
    polyline := [⟨0, 0⟩], summary := "", warnings := [], waypoint_order := [] }

/-- A one-cell heap holding the steps list of `routeHW`. -/
def heapW : Heap := [[stepCexA]]

/-- A heap-modelled route whose steps list lives in cell 0 of `heapW`. -/
def routeHW : RouteH := { steps_ref := 0, end_location := ⟨1, 0⟩ }

/-! ### Helper lemmas -/

theorem pyInt_intCast (m : ℤ) : pyInt ((m : ℝ)) = m := by
  unfold pyInt
  split_ifs
  · exact Int.floor_intCast m
  · exact Int.ceil_intCast m

theorem pyInt_nonneg {x : ℝ} (hx : 0 ≤ x) : 0 ≤ pyInt x := by
  unfold pyInt
  rw [if_pos hx]
  exact Int.floor_nonneg.mpr hx

theorem planar_dist_self (a : Coord) : planar_dist a a = 0 := by
  simp [planar_dist]

theorem heap_read_append (h : Heap) (l : List Step) (r : ℕ) (hr : r < h.length) :
    heap_read (h ++ [l]) r = heap_read h r := by
  unfold heap_read
  exact List.getD_append h [l] [] r hr

theorem heap_read_insert0_ne (h : Heap) (r r2 : ℕ) (s : Step) (hne : r2 ≠ r) :
    heap_read (heap_insert0 h r s) r2 = heap_read h r2 := by
  unfold heap_insert0 heap_read
  simp [List.getD_eq_getElem?_getD, List.getElem?_set_ne (fun hc => hne hc.symm)]

theorem legs_distance_sum :
    ∀ legs : List RawLeg,
      (∀ leg ∈ legs, leg.distance_value = (leg.steps.map RawStep.distance_value).sum) →
      (legs.map RawLeg.distance_value).sum =
        (((legs.map fun leg => leg.steps.map parse_step).flatten).map Step.distance).sum := by
  intro legs
  induction legs with
  | nil => intro _; rfl
  | cons leg t ih =>
    intro hc
    simp only [List.map_cons, List.flatten_cons, List.map_append, List.sum_append,
      List.sum_cons]
    rw [hc leg (List.mem_cons_self leg t), ih (fun l hl => hc l (List.mem_cons_of_mem leg hl))]
    congr 1
    simp only [List.map_map]
    rfl

theorem legs_duration_sum :
    ∀ legs : List RawLeg,
      (∀ leg ∈ legs, leg.duration_value = (leg.steps.map RawStep.duration_value).sum) →
      (legs.map RawLeg.duration_value).sum =
        (((legs.map fun leg => leg.steps.map parse_step).flatten).map
          fun s => s.duration.getD 0).sum := by
  intro legs
  induction legs with
  | nil => intro _; rfl
  | cons leg t ih =>
    intro hc
    simp only [List.map_cons, List.flatten_cons, List.map_append, List.sum_append,
      List.sum_cons]
    rw [hc leg (List.mem_cons_self leg t), ih (fun l hl => hc l (List.mem_cons_of_mem leg hl))]
    congr 1
    simp only [List.map_map]
    rfl

theorem fallback_ne_nil (r : List StopPoint × ℤ) (p : StopPoint) :
    (if r.1 = [] then ([p], r.2) else r).1 ≠ [] := by
  split_ifs with h
  · simp
  · exact h

theorem hour_space_append (x : String) : " hour" ++ (" " ++ x) = " hour " ++ x := by
  rw [← String.append_assoc]
  have hlit : " hour" ++ " " = " hour " := by decide
  rw [hlit]

theorem hours_space_append (x : String) : " hours" ++ (" " ++ x) = " hours " ++ x := by
  rw [← String.append_assoc]
  have hlit : " hours" ++ " " = " hours " := by decide
  rw [hlit]

theorem aproximate_ne_nil (step : Step) (d dbp full : ℤ) (of : Bool) :
    (aproximate_stop_points step d dbp full of).1 ≠ [] := by
  unfold aproximate_stop_points
  dsimp only
  split <;> exact fallback_ne_nil _ _

theorem aproximate_degenerate_eq (step : Step) (d dbp full : ℤ) (of : Bool)
    (h : ¬(0 < step.distance ∧ step.polyline ≠ [])) :
    aproximate_stop_points step d dbp full of =
      ([init_stop_point step.end_location.lat step.end_location.lng full], 0) := by
  unfold aproximate_stop_points
  dsimp only
  rw [if_neg h]
  simp

theorem locate_coordinate_go_some_ne_none (c : Coord) :
    ∀ (l : List Coord) (ind : ℕ) (b : ℕ × ℝ),
      locate_coordinate_go c l ind (some b) ≠ none := by
  intro l
  induction l with
  | nil => intro ind b h; simp [locate_coordinate_go] at h
  | cons v rest ih =>
    intro ind b h
    rcases b with ⟨bi, bd⟩
    unfold locate_coordinate_go at h
    dsimp only at h
    split_ifs at h with hlt
    · exact ih (ind + 1) (ind, planar_dist c v) h
    · exact ih (ind + 1) (bi, bd) h

theorem locate_coordinate_go_eq_none (c : Coord) :
    ∀ (l : List Coord) (ind : ℕ),
      locate_coordinate_go c l ind none = none → l = [] := by
  intro l ind h
  cases l with
  | nil => rfl
  | cons v rest =>
    unfold locate_coordinate_go at h
    dsimp only at h
    exact absurd h (locate_coordinate_go_some_ne_none c rest (ind + 1) (ind, planar_dist c v))

theorem locate_coordinate_go_some (c : Coord) :
    ∀ (l : List Coord) (ind : ℕ) (best : Option (ℕ × ℝ)) (i : ℕ) (d : ℝ),
      locate_coordinate_go c l ind best = some (i, d) →
      (best = some (i, d) ∧ ∀ p ∈ l, d ≤ planar_dist c p) ∨
      (∃ k, ∃ hk : k < l.length, i = ind + k ∧ d = planar_dist c (l.get ⟨k, hk⟩) ∧
        (∀ p ∈ l, d ≤ planar_dist c p) ∧
        (∀ j, ∀ hj : j < k, d < planar_dist c (l.get ⟨j, hj.trans hk⟩)) ∧
        (∀ bi bd, best = some (bi, bd) → d < bd)) := by
  intro l
  induction l with
  | nil =>
    intro ind best i d h
    left
    exact ⟨h, by simp⟩
  | cons v rest ih =>
    intro ind best i d h
    unfold locate_coordinate_go at h
    dsimp only at h
    cases best with
    | none =>
      rcases ih (ind + 1) (some (ind, planar_dist c v)) i d h with
        ⟨hb, hall⟩ | ⟨k, hk, hik, hd, hall, hstrict, hbest⟩
      · injection hb with hpair
        have hii : ind = i := congrArg Prod.fst hpair
        have hdd : planar_dist c v = d := congrArg Prod.snd hpair
        right
        refine ⟨0, Nat.succ_pos _, by omega, hdd.symm, ?_, ?_, ?_⟩
        · intro p hp
          rcases List.mem_cons.mp hp with rfl | hp
          · rw [← hdd]
          · exact hall p hp
        · intro j hj
          exact absurd hj (Nat.not_lt_zero j)
        · intro bi bd hbb
          exact Option.noConfusion hbb
      · right
        have hvlt : d < planar_dist c v := hbest ind (planar_dist c v) rfl
        refine ⟨k + 1, Nat.succ_lt_succ hk, by omega, hd, ?_, ?_, ?_⟩
        · intro p hp
          rcases List.mem_cons.mp hp with rfl | hp
          · exact le_of_lt hvlt
          · exact hall p hp
        · intro j hj
          cases j with
          | zero => exact hvlt
          | succ j2 => exact hstrict j2 (Nat.lt_of_succ_lt_succ hj)
        · intro bi bd hbb
          exact Option.noConfusion hbb
    | some bb =>
      rcases bb with ⟨bi, bd⟩
      dsimp only at h
      split_ifs at h with hlt
      · rcases ih (ind + 1) (some (ind, planar_dist c v)) i d h with
          ⟨hb, hall⟩ | ⟨k, hk, hik, hd, hall, hstrict, hbest⟩
        · injection hb with hpair
          have hii : ind = i := congrArg Prod.fst hpair
          have hdd : planar_dist c v = d := congrArg Prod.snd hpair
          right
          refine ⟨0, Nat.succ_pos _, by omega, hdd.symm, ?_, ?_, ?_⟩
          · intro p hp
            rcases List.mem_cons.mp hp with rfl | hp
            · rw [← hdd]
            · exact hall p hp
          · intro j hj
            exact absurd hj (Nat.not_lt_zero j)
          · intro bi2 bd2 hbb
            injection hbb with hpair2
            have hbd : bd = bd2 := congrArg Prod.snd hpair2
            rw [← hbd, ← hdd]
            exact hlt
        · right
          have hvlt : d < planar_dist c v := hbest ind (planar_dist c v) rfl
          refine ⟨k + 1, Nat.succ_lt_succ hk, by omega, hd, ?_, ?_, ?_⟩
          · intro p hp
            rcases List.mem_cons.mp hp with rfl | hp
            · exact le_of_lt hvlt
            · exact hall p hp
          · intro j hj
            cases j with
            | zero => exact hvlt
            | succ j2 => exact hstrict j2 (Nat.lt_of_succ_lt_succ hj)
          · intro bi2 bd2 hbb
            injection hbb with hpair2
            have hbd : bd = bd2 := congrArg Prod.snd hpair2
            rw [← hbd]
            exact hvlt.trans hlt
      · rcases ih (ind + 1) (some (bi, bd)) i d h with
          ⟨hb, hall⟩ | ⟨k, hk, hik, hd, hall, hstrict, hbest⟩
        · left
          refine ⟨hb, ?_⟩
          intro p hp
          rcases List.mem_cons.mp hp with rfl | hp
          · injection hb with hpair
            have hbd : bd = d := congrArg Prod.snd hpair
            rw [← hbd]
            exact not_lt.mp hlt
          · exact hall p hp
        · right
          have hdbd : d < bd := hbest bi bd rfl
          refine ⟨k + 1, Nat.succ_lt_succ hk, by omega, hd, ?_, ?_, ?_⟩
          · intro p hp
            rcases List.mem_cons.mp hp with rfl | hp
            · exact le_of_lt (hdbd.trans_le (not_lt.mp hlt))
            · exact hall p hp
          · intro j hj
            cases j with
            | zero => exact hdbd.trans_le (not_lt.mp hlt)
            | succ j2 => exact hstrict j2 (Nat.lt_of_succ_lt_succ hj)
          · intro bi2 bd2 hbb
            injection hbb with hpair2
            have hbd : bd = bd2 := congrArg Prod.snd hpair2
            rw [← hbd]
            exact hdbd

theorem locate_coordinate_some_spec (coords : List Coord) (c : Coord) (i : ℕ) (d : ℝ)
    (h : locate_coordinate coords c = some (i, d)) :
    ∃ hi : i < coords.length,
      d = planar_dist c (coords.get ⟨i, hi⟩) ∧
      (∀ p ∈ coords, d ≤ planar_dist c p) ∧
      ∀ j, ∀ hj : j < i, d < planar_dist c (coords.get ⟨j, hj.trans hi⟩) := by
  rcases locate_coordinate_go_some c coords 0 none i d h with
    ⟨hb, _⟩ | ⟨k, hk, hik, hd, hall, hstrict, _⟩
  · exact Option.noConfusion hb
  · obtain rfl : k = i := by omega
    exact ⟨hk, hd, hall, hstrict⟩

theorem locate_coordinate_eq_none (coords : List Coord) (c : Coord) :
    locate_coordinate coords c = none ↔ coords = [] := by
  constructor
  · exact locate_coordinate_go_eq_none c coords 0
  · rintro rfl
    rfl

theorem locate_coordinate_isSome (coords : List Coord) (c : Coord) (hne : coords ≠ []) :
    ∃ i d, locate_coordinate coords c = some (i, d) := by
  cases hlc : locate_coordinate coords c with
  | none => exact absurd ((locate_coordinate_eq_none coords c).mp hlc) hne
  | some p => exact ⟨p.1, p.2, rfl⟩

theorem locate_step_go_some_ne_none (c : Coord) :
    ∀ (l : List Step) (ind : ℕ) (b : ℕ × ℝ),
      locate_step_go c l ind (some b) ≠ none := by
  intro l
  induction l with
  | nil => intro ind b h; simp [locate_step_go] at h
  | cons st rest ih =>
    intro ind b h
    rcases b with ⟨bi, bd⟩
    unfold locate_step_go at h
    cases hlc : locate_coordinate st.polyline c with
    | none =>
      rw [hlc] at h
      exact ih (ind + 1) (bi, bd) h
    | some p =>
      rcases p with ⟨ci, len⟩
      rw [hlc] at h
      dsimp only at h
      split_ifs at h with hlt
      · exact ih (ind + 1) (ind, len) h
      · exact ih (ind + 1) (bi, bd) h

theorem locate_step_go_eq_none (c : Coord) :
    ∀ (l : List Step) (ind : ℕ),
      locate_step_go c l ind none = none →
      ∀ st ∈ l, locate_coordinate st.polyline c = none := by
  intro l
  induction l with
  | nil => intro ind _ st hst; cases hst
  | cons st rest ih =>
    intro ind h st2 hst2
    unfold locate_step_go at h
    cases hlc : locate_coordinate st.polyline c with
    | none =>
      rw [hlc] at h
      rcases List.mem_cons.mp hst2 with rfl | hm
      · exact hlc
      · exact ih (ind + 1) h st2 hm
    | some p =>
      rcases p with ⟨ci, len⟩
      rw [hlc] at h
      dsimp only at h
      exact absurd h (locate_step_go_some_ne_none c rest (ind + 1) (ind, len))

theorem locate_step_go_some (c : Coord) :
    ∀ (l : List Step) (ind : ℕ) (best : Option (ℕ × ℝ)) (i : ℕ) (d : ℝ),
      locate_step_go c l ind best = some (i, d) →
      (best = some (i, d) ∧
        ∀ st ∈ l, ∀ ci dl, locate_coordinate st.polyline c = some (ci, dl) → d ≤ dl) ∨
      (∃ k, ∃ hk : k < l.length, i = ind + k ∧
        (∃ ci, locate_coordinate ((l.get ⟨k, hk⟩).polyline) c = some (ci, d)) ∧
        (∀ st ∈ l, ∀ ci dl, locate_coordinate st.polyline c = some (ci, dl) → d ≤ dl) ∧
        (∀ j, ∀ hj : j < k, ∀ ci dl,
          locate_coordinate ((l.get ⟨j, hj.trans hk⟩).polyline) c = some (ci, dl) → d < dl) ∧
        (∀ bi bd, best = some (bi, bd) → d < bd)) := by
  intro l
  induction l with
  | nil =>
    intro ind best i d h
    left
    refine ⟨h, ?_⟩
    intro st hst
    cases hst
  | cons st rest ih =>
    intro ind best i d h
    unfold locate_step_go at h
    cases hlc : locate_coordinate st.polyline c with
    | none =>
      rw [hlc] at h
      rcases ih (ind + 1) best i d h with
        ⟨hb, hall⟩ | ⟨k, hk, hik, hci, hall, hstrict, hbest⟩
      · left
        refine ⟨hb, ?_⟩
        intro st2 hst2 ci dl hlc2
        rcases List.mem_cons.mp hst2 with rfl | hm
        · rw [hlc] at hlc2
          exact Option.noConfusion hlc2
        · exact hall st2 hm ci dl hlc2
      · right
        refine ⟨k + 1, Nat.succ_lt_succ hk, by omega, hci, ?_, ?_, hbest⟩
        · intro st2 hst2 ci dl hlc2
          rcases List.mem_cons.mp hst2 with rfl | hm
          · rw [hlc] at hlc2
            exact Option.noConfusion hlc2
          · exact hall st2 hm ci dl hlc2
        · intro j hj ci dl hlc2
          cases j with
          | zero =>
            have hlc2x : locate_coordinate st.polyline c = some (ci, dl) := hlc2
            rw [hlc] at hlc2x
            exact Option.noConfusion hlc2x
          | succ j2 => exact hstrict j2 (Nat.lt_of_succ_lt_succ hj) ci dl hlc2
    | some p =>
      rcases p with ⟨ci0, len⟩
      rw [hlc] at h
      dsimp only at h
      cases best with
      | none =>
        rcases ih (ind + 1) (some (ind, len)) i d h with
          ⟨hb, hall⟩ | ⟨k, hk, hik, hci, hall, hstrict, hbest⟩
        · injection hb with hpair
          have hii : ind = i := congrArg Prod.fst hpair
          have hdd : len = d := congrArg Prod.snd hpair
          right
          refine ⟨0, Nat.succ_pos _, by omega, ⟨ci0, by show locate_coordinate st.polyline c = some (ci0, d); rw [hlc, hdd]⟩, ?_, ?_, ?_⟩
          · intro st2 hst2 ci dl hlc2
            rcases List.mem_cons.mp hst2 with rfl | hm
            · rw [hlc] at hlc2
              injection hlc2 with hpair2
              have hld : len = dl := congrArg Prod.snd hpair2
              rw [← hld, ← hdd]
            · exact hall st2 hm ci dl hlc2
          · intro j hj
            exact absurd hj (Nat.not_lt_zero j)
          · intro bi bd hbb
            exact Option.noConfusion hbb
        · right
          have hvlt : d < len := hbest ind len rfl
          refine ⟨k + 1, Nat.succ_lt_succ hk, by omega, hci, ?_, ?_, ?_⟩
          · intro st2 hst2 ci dl hlc2
            rcases List.mem_cons.mp hst2 with rfl | hm
            · rw [hlc] at hlc2
              injection hlc2 with hpair2
              have hld : len = dl := congrArg Prod.snd hpair2
              rw [← hld]
              exact le_of_lt hvlt
            · exact hall st2 hm ci dl hlc2
          · intro j hj ci dl hlc2
            cases j with
            | zero =>
              have hlc2x : locate_coordinate st.polyline c = some (ci, dl) := hlc2
              rw [hlc] at hlc2x
              injection hlc2x with hpair2
              have hld : len = dl := congrArg Prod.snd hpair2
              rw [← hld]
              exact hvlt
            | succ j2 => exact hstrict j2 (Nat.lt_of_succ_lt_succ hj) ci dl hlc2
          · intro bi bd hbb
            exact Option.noConfusion hbb
      | some bb =>
        rcases bb with ⟨bi, bd⟩
        dsimp only at h
        split_ifs at h with hlt
        · rcases ih (ind + 1) (some (ind, len)) i d h with
            ⟨hb, hall⟩ | ⟨k, hk, hik, hci, hall, hstrict, hbest⟩
          · injection hb with hpair
            have hii : ind = i := congrArg Prod.fst hpair
            have hdd : len = d := congrArg Prod.snd hpair
            right
            refine ⟨0, Nat.succ_pos _, by omega, ⟨ci0, by show locate_coordinate st.polyline c = some (ci0, d); rw [hlc, hdd]⟩, ?_, ?_, ?_⟩
            · intro st2 hst2 ci dl hlc2
              rcases List.mem_cons.mp hst2 with rfl | hm
              · rw [hlc] at hlc2
                injection hlc2 with hpair2
                have hld : len = dl := congrArg Prod.snd hpair2
                rw [← hld, ← hdd]
              · exact hall st2 hm ci dl hlc2
            · intro j hj
              exact absurd hj (Nat.not_lt_zero j)
            · intro bi2 bd2 hbb
              injection hbb with hpair2
              have hbd : bd = bd2 := congrArg Prod.snd hpair2
              rw [← hbd, ← hdd]
              exact hlt
          · right
            have hvlt : d < len := hbest ind len rfl
            refine ⟨k + 1, Nat.succ_lt_succ hk, by omega, hci, ?_, ?_, ?_⟩
            · intro st2 hst2 ci dl hlc2
              rcases List.mem_cons.mp hst2 with rfl | hm
              · rw [hlc] at hlc2
                injection hlc2 with hpair2
                have hld : len = dl := congrArg Prod.snd hpair2
                rw [← hld]
                exact le_of_lt hvlt
              · exact hall st2 hm ci dl hlc2
            · intro j hj ci dl hlc2
              cases j with
              | zero =>
                have hlc2x : locate_coordinate st.polyline c = some (ci, dl) := hlc2
                rw [hlc] at hlc2x
                injection hlc2x with hpair2
                have hld : len = dl := congrArg Prod.snd hpair2
                rw [← hld]
                exact hvlt
              | succ j2 => exact hstrict j2 (Nat.lt_of_succ_lt_succ hj) ci dl hlc2
            · intro bi2 bd2 hbb
              injection hbb with hpair2
              have hbd : bd = bd2 := congrArg Prod.snd hpair2
              rw [← hbd]
              exact hvlt.trans hlt
        · rcases ih (ind + 1) (some (bi, bd)) i d h with
            ⟨hb, hall⟩ | ⟨k, hk, hik, hci, hall, hstrict, hbest⟩
          · left
            refine ⟨hb, ?_⟩
            intro st2 hst2 ci dl hlc2
            rcases List.mem_cons.mp hst2 with rfl | hm
            · rw [hlc] at hlc2
              injection hlc2 with hpair2
              have hld : len = dl := congrArg Prod.snd hpair2
              injection hb with hpair
              have hbd : bd = d := congrArg Prod.snd hpair
              rw [← hld, ← hbd]
              exact not_lt.mp hlt
            · exact hall st2 hm ci dl hlc2
          · right
            have hdbd : d < bd := hbest bi bd rfl
            refine ⟨k + 1, Nat.succ_lt_succ hk, by omega, hci, ?_, ?_, ?_⟩
            · intro st2 hst2 ci dl hlc2
              rcases List.mem_cons.mp hst2 with rfl | hm
              · rw [hlc] at hlc2
                injection hlc2 with hpair2
                have hld : len = dl := congrArg Prod.snd hpair2
                rw [← hld]
                exact le_of_lt (hdbd.trans_le (not_lt.mp hlt))
              · exact hall st2 hm ci dl hlc2
            · intro j hj ci dl hlc2
              cases j with
              | zero =>
                have hlc2x : locate_coordinate st.polyline c = some (ci, dl) := hlc2
                rw [hlc] at hlc2x
                injection hlc2x with hpair2
                have hld : len = dl := congrArg Prod.snd hpair2
                rw [← hld]
                exact hdbd.trans_le (not_lt.mp hlt)
              | succ j2 => exact hstrict j2 (Nat.lt_of_succ_lt_succ hj) ci dl hlc2
            · intro bi2 bd2 hbb
              injection hbb with hpair2
              have hbd : bd = bd2 := congrArg Prod.snd hpair2
              rw [← hbd]
              exact hdbd

theorem locate_step_some_spec (steps : List Step) (c : Coord) (i : ℕ)
    (h : locate_step steps c = some i) :
    ∃ (hi : i < steps.length) (d : ℝ) (ci : ℕ),
      locate_coordinate ((steps.get ⟨i, hi⟩).polyline) c = some (ci, d) ∧
      (∀ st ∈ steps, ∀ cj dj, locate_coordinate st.polyline c = some (cj, dj) → d ≤ dj) ∧
      (∀ j, ∀ hj : j < i, ∀ cj dj,
        locate_coordinate ((steps.get ⟨j, hj.trans hi⟩).polyline) c = some (cj, dj) →
          d < dj) := by
  unfold locate_step at h
  obtain ⟨⟨i2, d⟩, hgo, hfst⟩ := Option.map_eq_some'.mp h
  dsimp only at hfst
  subst hfst
  rcases locate_step_go_some c steps 0 none i2 d hgo with
    ⟨hb, _⟩ | ⟨k, hk, hik, ⟨ci, hci⟩, hall, hstrict, _⟩
  · exact Option.noConfusion hb
  · obtain rfl : k = i2 := by omega
    exact ⟨hk, d, ci, hci, hall, hstrict⟩

theorem locate_step_some_lt (steps : List Step) (c : Coord) (i : ℕ)
    (h : locate_step steps c = some i) : i < steps.length :=
  (locate_step_some_spec steps c i h).choose

theorem calculate_left_step_eq_some (step : Step) (c : Coord) (ls : Step) :
    calculate_left_step step c = some ls ↔
      ∃ i d', locate_coordinate step.polyline c = some (i, d') ∧
        i ≠ step.polyline.length - 1 ∧ 0 < step.distance ∧
        0 < (calculate_sector_lengths step.polyline).2 ∧
        0 < ((calculate_sector_lengths step.polyline).1.drop i).sum ∧
        ls = { start_location := step.polyline.getD i default
               end_location := step.polyline.getLastD default
               distance := pyInt ((step.distance : ℝ) /
                 (calculate_sector_lengths step.polyline).2 *
                 ((calculate_sector_lengths step.polyline).1.drop i).sum)
               duration := none
               polyline := step.polyline.drop i } := by
  unfold calculate_left_step
  dsimp only
  cases hlc : locate_coordinate step.polyline c with
  | none =>
    constructor
    · intro h
      exact Option.noConfusion h
    · rintro ⟨i, d', hci, _⟩
      exact Option.noConfusion hci
  | some p =>
    rcases p with ⟨ci, d0⟩
    dsimp only
    constructor
    · intro h
      split_ifs at h with h1 h2
      refine ⟨ci, d0, rfl, h1.1, h1.2.1, h1.2.2, h2, ?_⟩
      injection h with h3
      exact h3.symm
    · rintro ⟨i, d', hci, hne, hdist, hL, hR, hls⟩
      injection hci with hp
      obtain ⟨rfl, rfl⟩ : i = ci ∧ d' = d0 :=
        ⟨(congrArg Prod.fst hp).symm, (congrArg Prod.snd hp).symm⟩
      rw [if_pos ⟨hne, hdist, hL⟩, if_pos hR, hls]

theorem pyInt_of_nonneg {x : ℝ} (h : 0 ≤ x) : pyInt x = ⌊x⌋ := if_pos h

theorem calculate_left_step_distance_nonneg (step : Step) (c : Coord) (ls : Step)
    (h : calculate_left_step step c = some ls) : 0 ≤ ls.distance := by
  obtain ⟨i, d', hci, hne, hdist, hL, hR, hls⟩ :=
    (calculate_left_step_eq_some step c ls).mp h
  have hD : (0 : ℝ) < (step.distance : ℝ) := by exact_mod_cast hdist
  have hx : (0 : ℝ) ≤ (step.distance : ℝ) / (calculate_sector_lengths step.polyline).2 *
      ((calculate_sector_lengths step.polyline).1.drop i).sum :=
    mul_nonneg (div_nonneg hD.le hL.le) hR.le
  rw [hls]
  dsimp only
  rw [pyInt_of_nonneg hx]
  exact Int.floor_nonneg.mpr hx

theorem pd_00_10 : planar_dist ⟨0, 0⟩ ⟨1, 0⟩ = 1 := by
  show Real.sqrt ((((0 : ℚ) : ℝ) - ((1 : ℚ) : ℝ)) ^ 2 +
    (((0 : ℚ) : ℝ) - ((0 : ℚ) : ℝ)) ^ 2) = 1
  norm_num [Real.sqrt_one]

theorem pd_00_01 : planar_dist ⟨0, 0⟩ ⟨0, 1⟩ = 1 := by
  show Real.sqrt ((((0 : ℚ) : ℝ) - ((0 : ℚ) : ℝ)) ^ 2 +
    (((0 : ℚ) : ℝ) - ((1 : ℚ) : ℝ)) ^ 2) = 1
  norm_num [Real.sqrt_one]

theorem pd_01_00 : planar_dist ⟨0, 1⟩ ⟨0, 0⟩ = 1 := by
  show Real.sqrt ((((0 : ℚ) : ℝ) - ((0 : ℚ) : ℝ)) ^ 2 +
    (((1 : ℚ) : ℝ) - ((0 : ℚ) : ℝ)) ^ 2) = 1
  norm_num [Real.sqrt_one]

theorem lc_single_00 : locate_coordinate [⟨0, 0⟩] ⟨0, 0⟩ = some (0, 0) := by
  norm_num [locate_coordinate, locate_coordinate_go, planar_dist_self]

theorem lc_pair_00 : locate_coordinate [⟨0, 0⟩, ⟨0, 1⟩] ⟨0, 0⟩ = some (0, 0) := by
  norm_num [locate_coordinate, locate_coordinate_go, planar_dist_self, pd_00_01]

theorem lc_dup_01 :
    locate_coordinate [⟨0, 0⟩, ⟨0, 1⟩, ⟨0, 1⟩] ⟨0, 1⟩ = some (1, 0) := by
  norm_num [locate_coordinate, locate_coordinate_go, planar_dist_self, pd_01_00]

theorem csl_pair : calculate_sector_lengths [⟨0, 0⟩, ⟨0, 1⟩] = ([1], 1) := by
  norm_num [calculate_sector_lengths, pd_00_01]

theorem csl_dup : calculate_sector_lengths [⟨0, 0⟩, ⟨0, 1⟩, ⟨0, 1⟩] = ([1, 0], 1) := by
  norm_num [calculate_sector_lengths, pd_00_01, planar_dist_self]

theorem csl_unit_lng : calculate_sector_lengths [⟨0, 0⟩, ⟨1, 0⟩] = ([1], 1) := by
  norm_num [calculate_sector_lengths, pd_00_10]

theorem aproximate_stepCexA_eval :
    aproximate_stop_points stepCexA 100 50 100 false =
      ([init_stop_point 0 0 50], 50) := by
  norm_num [aproximate_stop_points, approx_go, stepCexA, csl_unit_lng, pd_00_10,
    pyInt, init_stop_point]
  decide

theorem lsp_cex_pair_eval :
    locate_stop_points [stepCexA, stepCexZero] 50 0 false =
      ([init_stop_point 0 0 50, init_stop_point 1 0 100], 100, 0) := by
  have hz : aproximate_stop_points stepCexZero 50 50 100 false =
      ([init_stop_point 1 0 100], 0) := by
    rw [aproximate_degenerate_eq stepCexZero 50 50 100 false (by norm_num [stepCexZero])]
    rfl
  have hdA : stepCexA.distance = 100 := rfl
  have hdZ : stepCexZero.distance = 0 := rfl
  norm_num [locate_stop_points, lsp_go, hdA, hdZ, aproximate_stepCexA_eval, hz]

theorem lsp_cex_single_eval :
    locate_stop_points [stepCexA] 50 0 false =
      ([init_stop_point 0 0 50], 100, 50) := by
  have hdA : stepCexA.distance = 100 := rfl
  norm_num [locate_stop_points, lsp_go, hdA, aproximate_stepCexA_eval]

theorem ls_stepW : locate_step [stepW] ⟨0, 0⟩ = some 0 := by
  norm_num [locate_step, locate_step_go, stepW, lc_single_00]

theorem cls_stepW : calculate_left_step stepW ⟨0, 0⟩ = none := by
  norm_num [calculate_left_step, stepW, lc_single_00]

theorem left_route_stepW : left_route_steps [stepW] ⟨0, 0⟩ 0 = [] := by
  norm_num [left_route_steps, cls_stepW]

theorem lsp_go_no_trigger (dbp : ℤ) (of : Bool) :
    ∀ (steps : List Step) (full distance : ℤ),
      (∀ s ∈ steps, 0 ≤ s.distance) →
      distance + (steps.map Step.distance).sum < dbp →
      lsp_go dbp of steps full distance =
        ([], full + (steps.map Step.distance).sum,
          distance + (steps.map Step.distance).sum) := by
  intro steps
  induction steps with
  | nil =>
    intro full distance _ _
    simp [lsp_go]
  | cons step rest ih =>
    intro full distance hnn hlt
    have hrest_nonneg : 0 ≤ (rest.map Step.distance).sum := by
      refine List.sum_nonneg ?_
      intro x hx
      obtain ⟨s, hs, rfl⟩ := List.mem_map.mp hx
      exact hnn s (List.mem_cons_of_mem _ hs)
    have hlt2 : distance + (step.distance + (rest.map Step.distance).sum) < dbp := by
      simpa using hlt
    unfold lsp_go
    dsimp only
    rw [if_neg (by omega : ¬ dbp ≤ distance + step.distance)]
    rw [ih (full + step.distance) (distance + step.distance)
      (fun s hs => hnn s (List.mem_cons_of_mem _ hs)) (by omega)]
    simp [add_assoc]

theorem approx_go_head (D full : ℤ) (np nl : ℝ) :
    ∀ (l : List (Coord × Coord)) (cp pct spp : ℝ) (nd : ℤ),
      (approx_go D full np nl true l cp pct spp nd).1.head? =
        (approx_go D full np nl false l cp pct spp nd).1.head? := by
  intro l
  induction l with
  | nil => intro cp pct spp nd; rfl
  | cons sector rest ih =>
    intro cp pct spp nd
    unfold approx_go
    dsimp only
    by_cases hlt : spp < cp + planar_dist sector.1 sector.2
    · rw [if_pos hlt, if_pos hlt]
      simp
    · rw [if_neg hlt, if_neg hlt]
      exact ih _ _ _ _

theorem head_fallback (rT rF : List StopPoint × ℤ) (p : StopPoint)
    (hh : rT.1.head? = rF.1.head?) :
    (if rT.1 = [] then ([p], rT.2) else rT).1.head? =
      (if rF.1 = [] then ([p], rF.2) else rF).1.head? := by
  rcases hT : rT.1 with _ | ⟨x, xs⟩ <;> rcases hF : rF.1 with _ | ⟨y, ys⟩
  · simp [hT, hF]
  · rw [hT, hF] at hh
    simp at hh
  · rw [hT, hF] at hh
    simp at hh
  · rw [if_neg (by simp [hT]), if_neg (by simp [hF]), hT, hF]
    rw [hT, hF] at hh
    exact hh

theorem aproximate_head (step : Step) (d dbp full : ℤ) :
    (aproximate_stop_points step d dbp full true).1.head? =
      (aproximate_stop_points step d dbp full false).1.head? := by
  unfold aproximate_stop_points
  dsimp only
  by_cases hg : 0 < step.distance ∧ step.polyline ≠ []
  · rw [if_pos hg, if_pos hg]
    exact head_fallback _ _ _ (approx_go_head _ _ _ _ _ _ _ _ _)
  · rw [if_neg hg, if_neg hg]

theorem lsp_go_head (dbp : ℤ) :
    ∀ (steps : List Step) (full distance : ℤ),
      (lsp_go dbp true steps full distance).1.head? =
        (lsp_go dbp false steps full distance).1.head? := by
  intro steps
  induction steps with
  | nil => intro full distance; rfl
  | cons step rest ih =>
    intro full distance
    unfold lsp_go
    dsimp only
    by_cases htr : dbp ≤ distance + step.distance
    · rw [if_pos htr, if_pos htr]
      have hne := aproximate_ne_nil step (distance + step.distance) dbp
        (full + step.distance) false
      have hh := aproximate_head step (distance + step.distance) dbp (full + step.distance)
      rcases hF : (aproximate_stop_points step (distance + step.distance) dbp
          (full + step.distance) false).1 with _ | ⟨y, ys⟩
      · exact absurd hF hne
      · rw [hF] at hh
        simp [hF, hh]
    · rw [if_neg htr, if_neg htr]
      exact ih _ _

theorem approx_go_spec (D full dbp : ℤ) (np nl : ℝ) (of : Bool)
    (hdbp : 0 < dbp) (hnp : np * (D : ℝ) = (dbp : ℝ)) :
    ∀ (l : List (Coord × Coord)) (cp pct spp : ℝ) (nd m : ℤ),
      pct * (D : ℝ) = (m : ℝ) →
      List.Chain' (fun p q : StopPoint => p.distance < q.distance)
          (approx_go D full np nl of l cp pct spp nd).1 ∧
        (∀ p ∈ (approx_go D full np nl of l cp pct spp nd).1,
            full - D + m ≤ p.distance) ∧
        ((approx_go D full np nl of l cp pct spp nd).1 = [] →
            (approx_go D full np nl of l cp pct spp nd).2 = nd) ∧
        (∀ last, (approx_go D full np nl of l cp pct spp nd).1.getLast? = some last →
            (approx_go D full np nl of l cp pct spp nd).2 = full - last.distance) := by
  intro l
  induction l with
  | nil =>
    intro cp pct spp nd m hm
    refine ⟨List.chain'_nil, by simp [approx_go], fun _ => rfl, ?_⟩
    intro last hlast
    simp [approx_go] at hlast
  | cons sector rest ih =>
    intro cp pct spp nd m hm
    have hpd : pyInt (pct * (D : ℝ)) = m := by rw [hm]; exact pyInt_intCast m
    have hp : (init_stop_point sector.1.lat sector.1.lng
        (full - D + pyInt (pct * (D : ℝ)))).distance = full - D + m := by
      simp [init_stop_point, hpd]
    unfold approx_go
    dsimp only
    by_cases hlt : spp < cp + planar_dist sector.1 sector.2
    · rw [if_pos hlt]
      by_cases hof : of = true
      · rw [if_pos hof]
        refine ⟨List.chain'_singleton _, ?_, ?_, ?_⟩
        · intro q hq
          rcases List.mem_singleton.mp hq with rfl
          rw [hp]
        · intro hc
          exact absurd hc (by simp)
        · intro last hlast
          simp only [List.getLast?_singleton, Option.some.injEq] at hlast
          rw [← hlast]
      · rw [if_neg hof]
        have hm2 : (pct + np) * (D : ℝ) = ((m + dbp : ℤ) : ℝ) := by
          rw [add_mul, hm, hnp]
          push_cast
          ring
        obtain ⟨ihc, ihm, ihe, ihl⟩ := ih (cp + planar_dist sector.1 sector.2)
          (pct + np) (spp + nl)
          (full - (init_stop_point sector.1.lat sector.1.lng
            (full - D + pyInt (pct * (D : ℝ)))).distance) (m + dbp) hm2
        refine ⟨?_, ?_, ?_, ?_⟩
        · refine List.chain'_cons'.mpr ⟨?_, ihc⟩
          intro q hq
          have hq2 := ihm q (List.mem_of_mem_head? hq)
          rw [hp]
          omega
        · intro q hq
          rcases List.mem_cons.mp hq with rfl | hq
          · rw [hp]
          · have := ihm q hq
            omega
        · intro hc
          exact absurd hc (by simp)
        · intro last hlast
          cases hr1 : (approx_go D full np nl of rest (cp + planar_dist sector.1 sector.2)
              (pct + np) (spp + nl)
              (full - (init_stop_point sector.1.lat sector.1.lng
                (full - D + pyInt (pct * (D : ℝ)))).distance)).1 with
          | nil =>
            rw [hr1] at hlast
            simp only [List.getLast?_singleton, Option.some.injEq] at hlast
            rw [ihe hr1, ← hlast]
          | cons z zs =>
            rw [hr1] at hlast
            rw [List.getLast?_cons_cons] at hlast
            exact ihl last (by rw [hr1]; exact hlast)
    · rw [if_neg hlt]
      exact ih _ _ _ _ m hm

theorem aproximate_spec (step : Step) (distance dbp full : ℤ) (of : Bool)
    (hdbp : 0 < dbp) (htr : dbp ≤ distance) :
    List.Chain' (fun p q : StopPoint => p.distance < q.distance)
        (aproximate_stop_points step distance dbp full of).1 ∧
      (∀ p ∈ (aproximate_stop_points step distance dbp full of).1,
          full - distance + dbp ≤ p.distance) ∧
      (∀ last,
        (aproximate_stop_points step distance dbp full of).1.getLast? = some last →
          (aproximate_stop_points step distance dbp full of).2 = full - last.distance) := by
  unfold aproximate_stop_points
  dsimp only
  by_cases hg : 0 < step.distance ∧ step.polyline ≠ []
  · rw [if_pos hg]
    have hDne : ((step.distance : ℝ)) ≠ 0 := by exact_mod_cast hg.1.ne'
    have hfp : ((|dbp - (distance - step.distance)| : ℤ) : ℝ) / (step.distance : ℝ) *
        (step.distance : ℝ) = ((|dbp - (distance - step.distance)| : ℤ) : ℝ) :=
      div_mul_cancel₀ _ hDne
    have hnp : (dbp : ℝ) / (step.distance : ℝ) * (step.distance : ℝ) = (dbp : ℝ) :=
      div_mul_cancel₀ _ hDne
    obtain ⟨hc, hmem, hemp, hlast⟩ := approx_go_spec step.distance full dbp
      ((dbp : ℝ) / (step.distance : ℝ))
      ((dbp : ℝ) / (step.distance : ℝ) * (calculate_sector_lengths step.polyline).2) of
      hdbp hnp (step.polyline.zip step.polyline.tail) 0
      (((|dbp - (distance - step.distance)| : ℤ) : ℝ) / (step.distance : ℝ))
      (((|dbp - (distance - step.distance)| : ℤ) : ℝ) / (step.distance : ℝ) *
        (calculate_sector_lengths step.polyline).2)
      0 (|dbp - (distance - step.distance)|) hfp
    have habs : dbp - (distance - step.distance) ≤ |dbp - (distance - step.distance)| :=
      le_abs_self _
    cases hr1 : (approx_go step.distance full
        ((dbp : ℝ) / (step.distance : ℝ))
        ((dbp : ℝ) / (step.distance : ℝ) * (calculate_sector_lengths step.polyline).2) of
        (step.polyline.zip step.polyline.tail) 0
        (((|dbp - (distance - step.distance)| : ℤ) : ℝ) / (step.distance : ℝ))
        (((|dbp - (distance - step.distance)| : ℤ) : ℝ) / (step.distance : ℝ) *
          (calculate_sector_lengths step.polyline).2) 0).1 with
    | nil =>
      rw [if_pos rfl]
      refine ⟨List.chain'_singleton _, ?_, ?_⟩
      · intro q hq
        rcases List.mem_singleton.mp hq with rfl
        show full - distance + dbp ≤ full
        omega
      · intro last hl
        simp only [List.getLast?_singleton, Option.some.injEq] at hl
        rw [hemp hr1, ← hl]
        show (0 : ℤ) = full - full
        omega
    | cons z zs =>
      rw [if_neg (by simp)]
      refine ⟨hc, ?_, hlast⟩
      intro q hq
      have := hmem q hq
      omega
  · rw [if_neg hg]
    dsimp only
    rw [if_pos rfl]
    refine ⟨List.chain'_singleton _, ?_, ?_⟩
    · intro q hq
      rcases List.mem_singleton.mp hq with rfl
      show full - distance + dbp ≤ full
      omega
    · intro last hl
      simp only [List.getLast?_singleton, Option.some.injEq] at hl
      rw [← hl]
      show (0 : ℤ) = full - full
      omega

theorem lsp_go_spec (dbp : ℤ) (of : Bool) (hdbp : 0 < dbp) :
    ∀ (steps : List Step) (full distance : ℤ),
      List.Chain' (fun p q : StopPoint => p.distance < q.distance)
          (lsp_go dbp of steps full distance).1 ∧
        ∀ p ∈ (lsp_go dbp of steps full distance).1,
          full - distance + dbp ≤ p.distance := by
  intro steps
  induction steps with
  | nil =>
    intro full distance
    exact ⟨List.chain'_nil, by simp [lsp_go]⟩
  | cons step rest ih =>
    intro full distance
    unfold lsp_go
    dsimp only
    by_cases htr : dbp ≤ distance + step.distance
    · rw [if_pos htr]
      obtain ⟨hc1, hmem1, hlast1⟩ := aproximate_spec step (distance + step.distance) dbp
        (full + step.distance) of hdbp htr
      by_cases hof : of = true
      · rw [if_pos hof]
        refine ⟨hc1, ?_⟩
        intro p hp
        have := hmem1 p hp
        omega
      · rw [if_neg hof]
        obtain ⟨hc2, hmem2⟩ := ih (full + step.distance)
          (aproximate_stop_points step (distance + step.distance) dbp
            (full + step.distance) of).2
        refine ⟨?_, ?_⟩
        · refine List.chain'_append.mpr ⟨hc1, hc2, ?_⟩
          intro x hx y hy
          have hx2 := hlast1 x hx
          have hxmem := hmem1 x (List.mem_of_mem_getLast? hx)
          have hy2 := hmem2 y (List.mem_of_mem_head? hy)
          omega
        · intro p hp
          rcases List.mem_append.mp hp with hp | hp
          · have := hmem1 p hp
            omega
          · have hp2 := hmem2 p hp
            have hne : (aproximate_stop_points step (distance + step.distance) dbp
                (full + step.distance) of).1 ≠ [] :=
              aproximate_ne_nil _ _ _ _ _
            obtain ⟨last, hlastsome⟩ :=
              Option.ne_none_iff_exists'.mp (fun hc =>
                hne (List.getLast?_eq_none_iff.mp hc))
            have h1 := hlast1 last hlastsome
            have h2 := hmem1 last (List.mem_of_mem_getLast? (by rw [hlastsome]; rfl))
            omega
    · rw [if_neg htr]
      obtain ⟨hc2, hmem2⟩ := ih (full + step.distance) (distance + step.distance)
      refine ⟨hc2, ?_⟩
      intro p hp
      have := hmem2 p hp
      omega

/-! ### Claims -/

/-- C5: for every step list and coordinate, `locate_step` returns `none` on
an empty step list, returns an index whenever some step has a vertex, and
any returned index points at a step owning a polyline vertex at the
globally smallest planar Euclidean distance to the coordinate, with every
strictly earlier step's vertices strictly farther away (ties are resolved
by first occurrence in iteration order). -/
theorem locate_step_globally_nearest :
    ∀ (steps : List Step) (c : Coord),
      (steps = [] → locate_step steps c = none) ∧
      ((∃ st ∈ steps, st.polyline ≠ []) → ∃ i, locate_step steps c = some i) ∧
      (∀ i, locate_step steps c = some i →
        ∃ (hi : i < steps.length) (v : Coord),
          v ∈ (steps.get ⟨i, hi⟩).polyline ∧
          (∀ st ∈ steps, ∀ w ∈ st.polyline, planar_dist c v ≤ planar_dist c w) ∧
          (∀ j, ∀ hj : j < steps.length, j < i →
            ∀ w ∈ (steps.get ⟨j, hj⟩).polyline, planar_dist c v < planar_dist c w)) := by
  intro steps c
  refine ⟨?_, ?_, ?_⟩
  · rintro rfl
    rfl
  · rintro ⟨st, hst, hne⟩
    cases hgo : locate_step_go c steps 0 none with
    | some p => exact ⟨p.1, by unfold locate_step; rw [hgo]; rfl⟩
    | none =>
      have hn := locate_step_go_eq_none c steps 0 hgo st hst
      exact absurd ((locate_coordinate_eq_none _ c).mp hn) hne
  · intro i hi
    obtain ⟨hlen, d, ci, hci, hall, hstrict⟩ := locate_step_some_spec steps c i hi
    obtain ⟨hcilt, hdv, hvall, _⟩ := locate_coordinate_some_spec _ c ci d hci
    refine ⟨hlen, ((steps.get ⟨i, hlen⟩).polyline).get ⟨ci, hcilt⟩,
      List.get_mem _ _ _, ?_, ?_⟩
    · intro st hst w hw
      have hne : st.polyline ≠ [] := fun hc => by rw [hc] at hw; cases hw
      obtain ⟨cj, dj, hcj⟩ := locate_coordinate_isSome _ c hne
      have h1 : d ≤ dj := hall st hst cj dj hcj
      obtain ⟨hcjlt, _, hjall, _⟩ := locate_coordinate_some_spec _ c cj dj hcj
      have h2 : dj ≤ planar_dist c w := hjall w hw
      rw [← hdv]
      exact h1.trans h2
    · intro j hj hji w hw
      have hne : (steps.get ⟨j, hj⟩).polyline ≠ [] := fun hc => by rw [hc] at hw; cases hw
      obtain ⟨cj, dj, hcj⟩ := locate_coordinate_isSome _ c hne
      have h1 : d < dj := hstrict j hji cj dj hcj
      obtain ⟨hcjlt, _, hjall, _⟩ := locate_coordinate_some_spec _ c cj dj hcj
      have h2 : dj ≤ planar_dist c w := hjall w hw
      rw [← hdv]
      exact h1.trans_le h2

/-- C4 (amended): `calculate_left_step` returns the not-found sentinel
exactly when the nearest-vertex search fails or its result satisfies one of:
the located vertex is the last vertex, the step's authoritative distance is
not positive, the total polyline length is not positive, or — the case the
source adds beyond the spec — the remaining polyline length from the
located vertex onward is not positive.  In every other case it returns a
left step whose start is the located vertex, whose end is the polyline's
last vertex, whose polyline is the sub-sequence from the located vertex
onward, whose distance is the authoritative distance scaled by
remaining-over-total polyline length and floored, and whose duration is
absent. -/
theorem calculate_left_step_characterisation :
    ∀ (step : Step) (c : Coord),
      (calculate_left_step step c = none ↔
        ∀ i d', locate_coordinate step.polyline c = some (i, d') →
          (i + 1 = step.polyline.length ∨ step.distance ≤ 0 ∨
            (calculate_sector_lengths step.polyline).2 ≤ 0 ∨
            ((calculate_sector_lengths step.polyline).1.drop i).sum ≤ 0)) ∧
      (∀ i d', locate_coordinate step.polyline c = some (i, d') →
        i + 1 ≠ step.polyline.length → 0 < step.distance →
        0 < (calculate_sector_lengths step.polyline).2 →
        0 < ((calculate_sector_lengths step.polyline).1.drop i).sum →
        calculate_left_step step c =
          some { start_location := step.polyline.getD i default
                 end_location := step.polyline.getLastD default
                 distance := ⌊(step.distance : ℝ) *
                   (((calculate_sector_lengths step.polyline).1.drop i).sum /
                     (calculate_sector_lengths step.polyline).2)⌋
                 duration := none
                 polyline := step.polyline.drop i }) := by
  intro step c
  constructor
  · constructor
    · intro hnone i d' hci
      by_contra hcon
      push_neg at hcon
      obtain ⟨h1, h2, h3, h4⟩ := hcon
      obtain ⟨hilt, _⟩ := locate_coordinate_some_spec _ c i d' hci
      have hsome : calculate_left_step step c = some _ :=
        (calculate_left_step_eq_some step c _).mpr
          ⟨i, d', hci, by omega, h2, h3, h4, rfl⟩
      rw [hnone] at hsome
      exact Option.noConfusion hsome
    · intro hcond
      cases hcalc : calculate_left_step step c with
      | none => rfl
      | some ls =>
        obtain ⟨i, d', hci, hne, hdist, hL, hR, _⟩ :=
          (calculate_left_step_eq_some step c ls).mp hcalc
        obtain ⟨hilt, _⟩ := locate_coordinate_some_spec _ c i d' hci
        rcases hcond i d' hci with hc | hc | hc | hc
        · exact absurd hc (by omega)
        · exact absurd hdist (not_lt.mpr hc)
        · exact absurd hL (not_lt.mpr hc)
        · exact absurd hR (not_lt.mpr hc)
  · intro i d' hci hne hdist hL hR
    obtain ⟨hilt, _⟩ := locate_coordinate_some_spec _ c i d' hci
    have hD : (0 : ℝ) < (step.distance : ℝ) := by exact_mod_cast hdist
    have hx : (0 : ℝ) ≤ (step.distance : ℝ) / (calculate_sector_lengths step.polyline).2 *
        ((calculate_sector_lengths step.polyline).1.drop i).sum :=
      mul_nonneg (div_nonneg hD.le hL.le) hR.le
    have hpy : pyInt ((step.distance : ℝ) / (calculate_sector_lengths step.polyline).2 *
          ((calculate_sector_lengths step.polyline).1.drop i).sum) =
        ⌊(step.distance : ℝ) * (((calculate_sector_lengths step.polyline).1.drop i).sum /
          (calculate_sector_lengths step.polyline).2)⌋ := by
      rw [pyInt_of_nonneg hx]
      congr 1
      ring
    refine (calculate_left_step_eq_some step c _).mpr
      ⟨i, d', hci, by omega, hdist, hL, hR, ?_⟩
    rw [hpy]

/-- C4 counterexample: with a trailing repeated vertex the nearest vertex is
not the last one, the authoritative distance and the total polyline length
are both positive, yet `calculate_left_step` returns the sentinel (the
remaining polyline length from the located vertex is zero), contradicting
the claim's "in every other case it returns a partial Step". -/
theorem calculate_left_step_cex :
    calculate_left_step stepCexDup ⟨0, 1⟩ = none ∧
      locate_coordinate stepCexDup.polyline ⟨0, 1⟩ = some (1, 0) ∧
      stepCexDup.polyline.length = 3 ∧
      (1 : ℕ) + 1 ≠ 3 ∧
      0 < stepCexDup.distance ∧
      0 < (calculate_sector_lengths stepCexDup.polyline).2 := by
  refine ⟨?_, ?_, rfl, by decide, by decide, ?_⟩
  · norm_num [calculate_left_step, stepCexDup, lc_dup_01, csl_dup]
  · norm_num [stepCexDup, lc_dup_01]
  · norm_num [stepCexDup, csl_dup]

theorem calculate_left_step_characterisation_witness :
    locate_coordinate stepB.polyline ⟨0, 0⟩ = some (0, 0) ∧
      (0 : ℕ) + 1 ≠ stepB.polyline.length ∧
      0 < stepB.distance ∧
      0 < (calculate_sector_lengths stepB.polyline).2 ∧
      0 < ((calculate_sector_lengths stepB.polyline).1.drop 0).sum ∧
      calculate_left_step stepB ⟨0, 0⟩ =
        some { start_location := stepB.polyline.getD 0 default
               end_location := stepB.polyline.getLastD default
               distance := ⌊(stepB.distance : ℝ) *
                 (((calculate_sector_lengths stepB.polyline).1.drop 0).sum /
                   (calculate_sector_lengths stepB.polyline).2)⌋
               duration := none
               polyline := stepB.polyline.drop 0 } := by
  have h1 : locate_coordinate stepB.polyline ⟨0, 0⟩ = some (0, 0) := by
    norm_num [stepB, lc_pair_00]
  have h2 : (0 : ℕ) + 1 ≠ stepB.polyline.length := by norm_num [stepB]
  have h3 : 0 < stepB.distance := by decide
  have h4 : 0 < (calculate_sector_lengths stepB.polyline).2 := by
    norm_num [stepB, csl_pair]
  have h5 : 0 < ((calculate_sector_lengths stepB.polyline).1.drop 0).sum := by
    norm_num [stepB, csl_pair]
  exact ⟨h1, h2, h3, h4, h5,
    (calculate_left_step_characterisation stepB ⟨0, 0⟩).2 0 0 h1 h2 h3 h4 h5⟩

theorem locate_step_globally_nearest_witness :
    (∃ st ∈ ([stepW] : List Step), st.polyline ≠ []) ∧
      ∃ i, locate_step [stepW] ⟨0, 0⟩ = some i :=
  ⟨⟨stepW, by simp, by simp [stepW]⟩,
    (locate_step_globally_nearest [stepW] ⟨0, 0⟩).2.1 ⟨stepW, by simp, by simp [stepW]⟩⟩

/-- C2: whenever a nearest step is found and the projection distance `d`
strictly exceeds the total distance of the reduced ("left") route — the
partial step, if any, followed by all steps after the located one —
`get_point_on_route` returns the route's own end location stamped with the
reduced route's total distance, together with `reached_end = true`.  (Step
distances are non-negative in every provider-built route, per the data
model.) -/
theorem get_point_on_route_reaches_end :
    ∀ (route : Route) (c : Coord) (d : ℤ) (i : ℕ),
      locate_step route.steps c = some i →
      (∀ s ∈ route.steps, 0 ≤ s.distance) →
      ((left_route_steps route.steps c i).map Step.distance).sum < d →
      get_point_on_route route c d =
        (some { lat := route.end_location.lat, lng := route.end_location.lng,
                distance := ((left_route_steps route.steps c i).map Step.distance).sum },
          true) := by
  intro route c d i hls hnn hlt
  have hnnL : ∀ s ∈ left_route_steps route.steps c i, 0 ≤ s.distance := by
    intro s hs
    unfold left_route_steps at hs
    cases hdrop : route.steps.drop i with
    | nil =>
      rw [hdrop] at hs
      simp at hs
    | cons st rest =>
      rw [hdrop] at hs
      dsimp only at hs
      have hrest : ∀ x ∈ rest, 0 ≤ x.distance := by
        intro x hx
        have hmem : x ∈ route.steps.drop i := by
          rw [hdrop]
          exact List.mem_cons_of_mem st hx
        exact hnn x (List.drop_subset i route.steps hmem)
      cases hcls : calculate_left_step st c with
      | none =>
        rw [hcls] at hs
        simp only [List.nil_append] at hs
        exact hrest s hs
      | some ls =>
        rw [hcls] at hs
        simp only [List.cons_append, List.nil_append, List.mem_cons] at hs
        rcases hs with rfl | hs
        · exact calculate_left_step_distance_nonneg st c s hcls
        · exact hrest s hs
  have hkey : locate_stop_points (left_route_steps route.steps c i) d 0 true =
      ([], ((left_route_steps route.steps c i).map Step.distance).sum,
        ((left_route_steps route.steps c i).map Step.distance).sum) := by
    unfold locate_stop_points
    rw [Int.zero_emod]
    have hres := lsp_go_no_trigger d true (left_route_steps route.steps c i) 0 0 hnnL
      (by simpa using hlt)
    simpa using hres
  unfold get_point_on_route
  rw [hls]
  dsimp only
  rw [hkey]

theorem get_point_on_route_reaches_end_witness :
    locate_step routeW.steps ⟨0, 0⟩ = some 0 ∧
      (∀ s ∈ routeW.steps, 0 ≤ s.distance) ∧
      ((left_route_steps routeW.steps ⟨0, 0⟩ 0).map Step.distance).sum < 1 ∧
      get_point_on_route routeW ⟨0, 0⟩ 1 =
        (some { lat := routeW.end_location.lat, lng := routeW.end_location.lng,
                distance := ((left_route_steps routeW.steps ⟨0, 0⟩ 0).map
                  Step.distance).sum },
          true) := by
  have h1 : locate_step routeW.steps ⟨0, 0⟩ = some 0 := by
    show locate_step [stepW] ⟨0, 0⟩ = some 0
    exact ls_stepW
  have h2 : ∀ s ∈ routeW.steps, 0 ≤ s.distance := by decide
  have h3 : ((left_route_steps routeW.steps ⟨0, 0⟩ 0).map Step.distance).sum < 1 := by
    show ((left_route_steps [stepW] ⟨0, 0⟩ 0).map Step.distance).sum < 1
    rw [left_route_stepW]
    decide
  exact ⟨h1, h2, h3, get_point_on_route_reaches_end routeW ⟨0, 0⟩ 1 0 h1 h2 h3⟩

/-- C10: for every route and coordinate, calling `get_point_on_route` with
the `distance` argument absent and at least one of `time` or `speed` also
absent fails with a raised `TypeError` (from evaluating `time * speed` on an
absent value); it does not return the `(None, False)` sentinel result. -/
theorem get_point_missing_args_raises :
    ∀ (route : Route) (coordinate : Coord) (time speed : Option ℤ),
      time = none ∨ speed = none →
      get_point_on_route_checked route coordinate none time speed =
          Except.error PyError.typeError ∧
        get_point_on_route_checked route coordinate none time speed ≠
          Except.ok (none, false) := by
  intro route c t s h
  have he : get_point_on_route_checked route c none t s = Except.error PyError.typeError := by
    rcases h with rfl | rfl
    · cases s <;> rfl
    · cases t <;> rfl
  exact ⟨he, by rw [he]; exact fun hc => Except.noConfusion hc⟩

theorem get_point_missing_args_raises_witness :
    ((some (3 : ℤ) = none ∨ (none : Option ℤ) = none)) ∧
      get_point_on_route_checked routeW ⟨0, 0⟩ none (some 3) none =
        Except.error PyError.typeError :=
  ⟨Or.inr rfl,
    (get_point_missing_args_raises routeW ⟨0, 0⟩ (some 3) none (Or.inr rfl)).1⟩

/-- C9: no engine operation mutates its route argument: in the heap model of
Python list objects, `get_point_on_route` leaves the cell holding the
route's steps list unchanged (the slice it takes is a fresh object and the
`insert(0, ...)` hits only that fresh object), and `get_stop_points` leaves
the whole heap unchanged. -/
theorem engine_does_not_mutate_route :
    ∀ (h : Heap) (route : RouteH) (coordinate : Coord) (d dbp tr : ℤ) (of : Bool),
      route.steps_ref < h.length →
      heap_read (get_point_on_route_h h route coordinate d).1 route.steps_ref =
          heap_read h route.steps_ref ∧
        (get_stop_points_h h route dbp tr of).1 = h := by
  intro h route c d dbp tr of href
  refine ⟨?_, rfl⟩
  have hne : route.steps_ref ≠ h.length := Nat.ne_of_lt href
  unfold get_point_on_route_h
  dsimp only
  cases hls : locate_step (heap_read h route.steps_ref) c with
  | none => rfl
  | some i =>
    dsimp only
    cases hdrop : (heap_read h route.steps_ref).drop i with
    | nil => rfl
    | cons st rest =>
      dsimp only [heap_alloc]
      cases hcls : calculate_left_step st c with
      | none =>
        dsimp only
        split
        · exact heap_read_append h rest route.steps_ref href
        · exact heap_read_append h rest route.steps_ref href
      | some ls =>
        dsimp only
        split <;>
          (rw [heap_read_insert0_ne _ _ _ _ hne]
           exact heap_read_append h rest route.steps_ref href)

theorem engine_does_not_mutate_route_witness :
    routeHW.steps_ref < heapW.length ∧
      heap_read (get_point_on_route_h heapW routeHW ⟨0, 0⟩ 7).1 routeHW.steps_ref =
        heap_read heapW routeHW.steps_ref :=
  ⟨Nat.zero_lt_one,
    (engine_does_not_mutate_route heapW routeHW ⟨0, 0⟩ 7 1 0 false Nat.zero_lt_one).1⟩

/-- C1 counterexample: the builder copies the LEG totals, so a raw response
whose leg total disagrees with the sum of its steps' values produces a route
violating `route.distance == Σ step.distance` (and likewise for duration). -/
theorem parse_route_conservation_cex :
    (parse_route rawRouteCex).distance ≠
        ((parse_route rawRouteCex).steps.map Step.distance).sum ∧
      (parse_route rawRouteCex).duration ≠
        ((parse_route rawRouteCex).steps.map fun s => s.duration.getD 0).sum := by
  constructor <;> decide

/-- C1 (amended): for every raw response in which each leg's
`distance.value` / `duration.value` equals the sum of its steps' values
(true of provider responses), the built route satisfies
`route.distance == Σ step.distance` and `route.duration == Σ step.duration`,
and every built step carries a duration.  (The truncated "left route" of
`get_point_on_route` carries only a bare steps list and no
distance/duration fields at all — see `left_route_steps` — so the equations
do not apply to it.) -/
theorem parse_route_conservation :
    ∀ raw : RawRoute,
      (∀ leg ∈ raw.legs, leg.distance_value = (leg.steps.map RawStep.distance_value).sum) →
      (∀ leg ∈ raw.legs, leg.duration_value = (leg.steps.map RawStep.duration_value).sum) →
      (parse_route raw).distance = ((parse_route raw).steps.map Step.distance).sum ∧
        (parse_route raw).duration =
          ((parse_route raw).steps.map fun s => s.duration.getD 0).sum ∧
        ∀ s ∈ (parse_route raw).steps, s.duration ≠ none := by
  intro raw hdist hdur
  refine ⟨legs_distance_sum raw.legs hdist, legs_duration_sum raw.legs hdur, ?_⟩
  intro s hs
  have hs2 : s ∈ (raw.legs.map fun leg => leg.steps.map parse_step).flatten := hs
  simp only [List.mem_flatten, List.mem_map] at hs2
  obtain ⟨l, ⟨leg, _, rfl⟩, hsl⟩ := hs2
  obtain ⟨x, _, rfl⟩ := List.mem_map.mp hsl
  simp [parse_step]

theorem parse_route_conservation_witness :
    (∀ leg ∈ rawRouteW.legs,
        leg.distance_value = (leg.steps.map RawStep.distance_value).sum) ∧
      (parse_route rawRouteW).distance =
        ((parse_route rawRouteW).steps.map Step.distance).sum :=
  ⟨by decide, (parse_route_conservation rawRouteW (by decide) (by decide)).1⟩

/-- C8: for every non-negative integer number of seconds,
`convert_seconds_to_duration_text` renders exactly as the spec describes
(`duration_text_from_spec`), and in particular maps 0 to `"0 mins"`, 3600 to
`"1 hour"`, 5400 to `"1 hour 30 mins"` and 7200 to `"2 hours"`. -/
theorem convert_seconds_to_duration_text_correct :
    (∀ seconds : ℤ, 0 ≤ seconds →
        convert_seconds_to_duration_text seconds = duration_text_from_spec seconds) ∧
      convert_seconds_to_duration_text 0 = "0 mins" ∧
      convert_seconds_to_duration_text 3600 = "1 hour" ∧
      convert_seconds_to_duration_text 5400 = "1 hour 30 mins" ∧
      convert_seconds_to_duration_text 7200 = "2 hours" := by
  refine ⟨?_, by decide, by decide, by decide, by decide⟩
  intro s hs
  have hh : 0 ≤ s.fdiv SECONDS_IN_HOUR := Int.fdiv_nonneg hs (by decide)
  have hm : 0 ≤ (s.fmod SECONDS_IN_HOUR).fdiv SECONDS_IN_MINUTE :=
    Int.fdiv_nonneg (Int.fmod_nonneg' s (by decide)) (by decide)
  unfold convert_seconds_to_duration_text duration_text_from_spec
  dsimp only
  split_ifs <;>
    first
      | rfl
      | omega
      | simp [String.append_assoc, String.append_empty, String.empty_append,
          hour_space_append, hours_space_append]

theorem convert_seconds_to_duration_text_witness :
    (0 : ℤ) ≤ 5400 ∧
      convert_seconds_to_duration_text 5400 = duration_text_from_spec 5400 :=
  ⟨by decide, convert_seconds_to_duration_text_correct.1 5400 (by decide)⟩

/-- C3 (amended): a step with zero (or otherwise non-positive) authoritative
distance or an empty decoded polyline yields no interior stop point; for it
— as for every step whose spacing boundary check found no interior point,
whether or not its remaining distance is positive — the step's end location
stamped with `full_distance` is emitted instead, and extraction continues
over the remaining steps.  The result list of `__aproximate_stop_points` is
consequently never empty. -/
theorem aproximate_degenerate_step_fallback :
    ∀ (step : Step) (d dbp full : ℤ) (of : Bool),
      ((step.distance ≤ 0 ∨ step.polyline = []) →
        aproximate_stop_points step d dbp full of =
          ([init_stop_point step.end_location.lat step.end_location.lng full], 0)) ∧
      (aproximate_stop_points step d dbp full of).1 ≠ [] := by
  intro step d dbp full of
  refine ⟨fun h => aproximate_degenerate_eq step d dbp full of ?_, aproximate_ne_nil _ _ _ _ _⟩
  rcases h with h | h
  · exact fun hc => absurd hc.1 (not_lt.mpr h)
  · exact fun hc => hc.2 h

/-- C6: for every step list, spacing `s > 0`, start offset, and mode, the
stop points returned by `locate_stop_points` carry strictly increasing
recorded distances. -/
theorem locate_stop_points_strictly_increasing :
    ∀ (steps : List Step) (dbp traveled : ℤ) (of : Bool), 0 < dbp →
      ((locate_stop_points steps dbp traveled of).1.map StopPoint.distance).Pairwise
        (· < ·) := by
  intro steps dbp traveled of hdbp
  haveI : IsTrans StopPoint (fun p q : StopPoint => p.distance < q.distance) :=
    ⟨fun _ _ _ h1 h2 => h1.trans h2⟩
  have h := (lsp_go_spec dbp of hdbp steps 0 (traveled % dbp)).1
  have hp := List.chain'_iff_pairwise.mp h
  unfold locate_stop_points
  exact (List.pairwise_map).mpr hp

theorem locate_stop_points_strictly_increasing_witness :
    (0 : ℤ) < 50 ∧
      ((locate_stop_points [stepCexA, stepCexZero] 50 0 false).1.map
        StopPoint.distance).Pairwise (· < ·) :=
  ⟨by decide,
    locate_stop_points_strictly_increasing [stepCexA, stepCexZero] 50 0 false (by decide)⟩

/-- C7: for every step list, positive spacing, and start offset, the single
result of `locate_stop_points` with `only_first = true` (when present)
equals the first element of the full list computed with
`only_first = false`; when one side is empty so is the other. -/
theorem locate_stop_points_only_first_head :
    ∀ (steps : List Step) (dbp traveled : ℤ), 0 < dbp →
      (locate_stop_points steps dbp traveled true).1.head? =
        (locate_stop_points steps dbp traveled false).1.head? := by
  intro steps dbp traveled _
  unfold locate_stop_points
  exact lsp_go_head dbp steps 0 (traveled % dbp)

theorem locate_stop_points_only_first_head_witness :
    (0 : ℤ) < 50 ∧
      (locate_stop_points [stepCexA, stepCexZero] 50 0 true).1.head? =
        (locate_stop_points [stepCexA, stepCexZero] 50 0 false).1.head? :=
  ⟨by decide,
    locate_stop_points_only_first_head [stepCexA, stepCexZero] 50 0 (by decide)⟩

/-- C3 counterexample: extraction over a 100 m step followed by a
zero-distance step with spacing 50 emits TWO points — the second one
(the zero-distance step's end location stamped with `full_distance` 100)
is contributed by the zero-distance step, which the claim says contributes
no stop point; dropping the zero-distance step removes that point. -/
theorem zero_distance_step_contributes_point :
    stepCexZero.distance = 0 ∧
      (locate_stop_points [stepCexA, stepCexZero] 50 0 false).1 =
        [init_stop_point 0 0 50, init_stop_point 1 0 100] ∧
      (locate_stop_points [stepCexA] 50 0 false).1 = [init_stop_point 0 0 50] := by
  refine ⟨rfl, ?_, ?_⟩
  · rw [lsp_cex_pair_eval]
  · rw [lsp_cex_single_eval]

theorem aproximate_degenerate_step_fallback_witness :
    (stepCexZero.distance ≤ 0 ∨ stepCexZero.polyline = []) ∧
      aproximate_stop_points stepCexZero 50 50 100 false =
        ([init_stop_point stepCexZero.end_location.lat stepCexZero.end_location.lng 100], 0) :=
  ⟨Or.inl (by decide),
    (aproximate_degenerate_step_fallback stepCexZero 50 50 100 false).1 (Or.inl (by decide))⟩

end RouteAPI
